import Mathlib

/-!
# Verification of the primesieve segment processor (PrimeNumberFinder)

Shallow embedding of `src/soe/PrimeNumberFinder.cpp`: the k-tuplet bitmask
tables and their construction (`initCounts`), the per-segment counting path
(`count`), the generation path (`generate`) and the `segmentProcessed`
entry point.  Bytes of a sieve segment are modelled as `Fin 256`; 64-bit
machine words are `Nat` values below `2 ^ 64` assembled from bytes.
-/

namespace PrimeNumberFinder

/-- A sieve segment byte: 8 candidate bits packed in one `uint8_t`. -/
abbrev Byte := Fin 256

/-- `kTupletBitmasks_` from the source: for each tuplet kind 0..6 the
ordered list of byte bit-patterns that constitute one tuplet of that kind.
The C++ array terminates each row with the sentinel `END` (`≥ 256`); here
each row is the explicit finite list of real patterns, the sentinel being
the end of the list. -/
def kTupletBitmasks : Fin 7 → List Nat
  | 0 => []
  | 1 => [0x06, 0x18, 0xc0]
  | 2 => [0x07, 0x0e, 0x1c, 0x38]
  | 3 => [0x1e]
  | 4 => [0x1f, 0x3e]
  | 5 => [0x3f]
  | 6 => [0xfe]

/-- The inner loop of `initCounts`: scan the pattern list in order and stop
as soon as a pattern exceeds the byte value `j` (in the C++ code the loop
condition `*b <= j` also stops at the sentinel `END ≥ 256 > j`); count the
patterns `p` with `(j & p) == p`. -/
def scanCount (j : Nat) : List Nat → Nat
  | [] => 0
  | p :: rest =>
    if p ≤ j then (if j &&& p = p then 1 else 0) + scanCount j rest
    else 0

/-- Brute-force reference: the number of patterns in the whole list that
are bitwise submasks of `j`. -/
def bruteCount (j : Nat) (ps : List Nat) : Nat :=
  (ps.filter (fun p => j &&& p = p)).length

/-- `kCounts_[k][j]` as built by `initCounts`: the early-exit scan count of
matching patterns of kind `k` in byte value `j`. -/
def kCountsEntry (k : Fin 7) (j : Byte) : Nat :=
  scanCount j.val (kTupletBitmasks k)

/-- Population count of a natural number (number of 1 bits). -/
def popc : Nat → Nat
  | 0 => 0
  | n + 1 => (n + 1) % 2 + popc ((n + 1) / 2)
decreasing_by exact Nat.div_lt_self (Nat.succ_pos n) Nat.one_lt_two

/-- Independent bit-by-bit reference counter: examine `fuel` bit positions
of `m` one at a time, adding each bit. -/
def bitwiseRef (fuel m : Nat) : Nat :=
  match fuel with
  | 0 => 0
  | f + 1 => m % 2 + bitwiseRef f (m / 2)

/-- Assemble a little-endian machine word from a list of byte values, as
the `reinterpret_cast<const uint64_t*>(sieve)` in `count` reads 8
consecutive bytes as one 64-bit word. -/
def word64 (bs : List Nat) : Nat :=
  bs.foldr (fun b acc => b + 256 * acc) 0

/-- Split a byte list into consecutive groups of 8 (the 64-bit words the
prime-counting loop reads). -/
def chunks8 : List Nat → List (List Nat)
  | [] => []
  | a :: l => (a :: l.take 7) :: chunks8 (l.drop 7)
termination_by l => l.length
decreasing_by simp [List.length_drop]; omega

/-- Modelled from the spec: `popcount.h` is not under `src/`; the spec
treats the population-count primitive as a black box whose contract is to
return the exact number of 1 bits of the 64-bit words passed to it
(`popcount_lauradoux(sieve64, size64)`). -/
def popcount_lauradoux (ws : List Nat) : Nat :=
  (ws.map popc).sum

/-- Modelled from the spec: `popcount.h` is not under `src/`; the spec
describes the fallback as a byte-wise population count over the trailing
`size mod 8` bytes (`popcount_kernighan(&sieve[sieveSize - bytesLeft],
bytesLeft)`). -/
def popcount_kernighan (bs : List Nat) : Nat :=
  (bs.map popc).sum

/-- The prime-counting branch of `PrimeNumberFinder::count`: population
count over the first `sieveSize / 8` 64-bit words of the segment, plus a
byte-wise population count over the `sieveSize % 8` trailing bytes. -/
def countPrimesDelta (s : List Byte) (n : Nat) : Nat :=
  popcount_lauradoux
      ((chunks8 (((s.take n).map Fin.val).take (n / 8 * 8))).map word64) +
    popcount_kernighan (((s.take n).map Fin.val).drop (n - n % 8))

/-- Bit-by-bit reference prime counter: the total number of 1 bits of a
byte list, each byte examined 8 bits one at a time. -/
def refBitCount (s : List Byte) : Nat :=
  (s.map (fun b => bitwiseRef 8 b.val)).sum

/-- The k-tuplet branch of `PrimeNumberFinder::count` for kind `k`:
`for j < sieveSize, kCount += kCounts_[k][sieve[j]]`. -/
def tupletDelta (k : Fin 7) (s : List Byte) (n : Nat) : Nat :=
  ((s.take n).map (fun b => kCountsEntry k b)).sum

/-- Specification-side tuplet count: the exact number of occurrences of
kind-`k` patterns across the first `n` bytes, each byte contributing the
number of patterns it contains as bitwise submasks. -/
def tupletOccurrences (k : Fin 7) (s : List Byte) (n : Nat) : Nat :=
  ((s.take n).map (fun b => bruteCount b.val (kTupletBitmasks k))).sum

/-- The per-kind delta `count` adds for kind `i`: the popcount-based prime
count at index 0, the lookup-table tuplet count at indices 1..6. -/
def kindDelta (i : Fin 7) (s : List Byte) (n : Nat) : Nat :=
  if i = 0 then countPrimesDelta s n else tupletDelta i s n

/-- The whole of `PrimeNumberFinder::count` as a transformer of the
`ps_.counts_` accumulator array: first the prime branch adds the popcount
to `counts_[0]` if `COUNT_PRIMES` is set, then the loop `i = 1..6` adds
the kind-`i` table sum to `counts_[i]` if `isCount(i)`. -/
def countRun (flags : Fin 7 → Bool) (s : List Byte) (n : Nat)
    (counts : Fin 7 → Nat) : Fin 7 → Nat :=
  ([1, 2, 3, 4, 5, 6] : List (Fin 7)).foldl
    (fun c i => if flags i then Function.update c i (c i + tupletDelta i s n) else c)
    (if flags 0 then Function.update counts 0 (counts 0 + countPrimesDelta s n)
     else counts)

/-- Modelled from the spec: `getNextPrime` (SieveOfEratosthenes-inline.h,
not under `src/`) consumes the set bits of a byte mask lowest-first; these
are the bit positions of `m` in increasing order. -/
def bitIndices (m : Nat) : List Nat :=
  (List.range 8).filter m.testBit

/-- The pattern scan of `generate`'s tuplet-printing loop: walk the
pattern list in order while `*bitmask <= sieve[j]` and collect the
patterns with `(sieve[j] & *bitmask) == *bitmask`. -/
def matchedPatterns (b : Nat) : List Nat → List Nat
  | [] => []
  | p :: rest =>
    if p ≤ b then (if b &&& p = p then [p] else []) ++ matchedPatterns b rest
    else []

/-- The body text a tuplet record accumulates after the opening paren:
the while loop prints each value followed by `", "` if bits remain and by
`")\n"` after the last one. -/
def recBody : List Nat → String
  | [] => ""
  | v :: rest => toString v ++ (if rest.isEmpty then ")\n" else ", ") ++ recBody rest

/-- One tuplet record as `generate` assembles it in the `ostringstream`:
`"("` then the value/separator loop. -/
def buildRecord (vs : List Nat) : String :=
  "(" ++ recBody vs

/-- The records printed by `generate`'s tuplet branch, in segment order:
for each byte `j` of the segment, for each matching pattern in scan order,
one record of the concrete values of the pattern's bits.  `nv j b` is the
numeric value of bit `b` of byte `j` (the engine's offset/wheel mapping,
modelled from the spec as an abstract parameter since
`SieveOfEratosthenes` is not under `src/`). -/
def tupletRecords (nv : Nat → Nat → Nat) (k : Fin 7) (s : List Byte) (n : Nat) :
    List String :=
  (s.take n).enum.flatMap (fun jb =>
    (matchedPatterns jb.2.val (kTupletBitmasks k)).map (fun p =>
      buildRecord ((bitIndices p).map (nv jb.1))))

/-- The value groups underlying the records of `tupletRecords`: for each
byte, for each pattern it contains, the group of concrete values of the
pattern's bits. -/
def recordGroups (nv : Nat → Nat → Nat) (k : Fin 7) (s : List Byte) (n : Nat) :
    List (List Nat) :=
  (s.take n).enum.flatMap (fun jb =>
    ((kTupletBitmasks k).filter (fun p => jb.2.val &&& p = p)).map (fun p =>
      (bitIndices p).map (nv jb.1)))

/-- The generation-related flags of the owning `PrimeSieve`: which tuplet
kind is printed (`isPrint(i)`, covered by `PRINT_TWINS..PRINT_SEPTUPLETS`),
and the five single-value sinks of the else branch. -/
structure GenConfig where
  printTuplet : Fin 7 → Bool
  callback32 : Bool
  callback64 : Bool
  callback32oop : Bool
  callback64oop : Bool
  printPrimes : Bool

/-- `ps_.isFlag(ps_.PRINT_TWINS, ps_.PRINT_SEPTUPLETS)`: some tuplet kind
1..6 is selected for textual output. -/
def tupletPrintMode (cfg : GenConfig) : Bool :=
  ([1, 2, 3, 4, 5, 6] : List (Fin 7)).any cfg.printTuplet

/-- The search loop `for (; !ps_.isPrint(i); i++)`: the first print-enabled
tuplet kind (only reached when `tupletPrintMode` holds, so the default is
never exercised). -/
def firstPrintKind (cfg : GenConfig) : Fin 7 :=
  ((([1, 2, 3, 4, 5, 6] : List (Fin 7)).find? cfg.printTuplet).getD 1)

/-- Observable events of one `generate` call: acquiring and releasing the
`PrimeSieve::LockGuard`, printing one tuplet record, and delivering one
prime value to one of the five single-value sinks (0 = callback32,
1 = callback64, 2 = callback32 OOP, 3 = callback64 OOP, 4 = print). -/
inductive GenEvent where
  | acq : GenEvent
  | rel : GenEvent
  | record (r : String) : GenEvent
  | prime (sink : Fin 5) (v : Nat) : GenEvent
deriving DecidableEq

/-- Whether an event delivers a value to a sink. -/
def GenEvent.isEmit : GenEvent → Bool
  | .record _ => true
  | .prime _ _ => true
  | _ => false

/-- Whether an event acquires the lock. -/
def isAcqEv : GenEvent → Bool
  | .acq => true
  | _ => false

/-- Whether an event releases the lock. -/
def isRelEv : GenEvent → Bool
  | .rel => true
  | _ => false

/-- Modelled from the spec: the `GENERATE_PRIMES` macro (GENERATE.h, not
under `src/`) visits each set bit of the segment in ascending order and
yields its numeric value under the engine's offset/wheel mapping `nv`. -/
def segmentValues (nv : Nat → Nat → Nat) (s : List Byte) (n : Nat) : List Nat :=
  (s.take n).enum.flatMap (fun jb => (bitIndices jb.2.val).map (nv jb.1))

/-- The deliveries of one sink of the else branch: all segment values to
sink `t` when its flag is set, nothing otherwise. -/
def sinkOn (b : Bool) (t : Fin 5) (nv : Nat → Nat → Nat) (s : List Byte) (n : Nat) :
    List GenEvent :=
  if b then (segmentValues nv s n).map (GenEvent.prime t) else []

/-- The emissions of `generate`'s else branch: the five `GENERATE_PRIMES`
lines checked in source order. -/
def elseEmits (cfg : GenConfig) (nv : Nat → Nat → Nat) (s : List Byte) (n : Nat) :
    List GenEvent :=
  sinkOn cfg.callback32 0 nv s n ++ sinkOn cfg.callback64 1 nv s n ++
    sinkOn cfg.callback32oop 2 nv s n ++ sinkOn cfg.callback64oop 3 nv s n ++
    sinkOn cfg.printPrimes 4 nv s n

/-- The event trace of one `PrimeNumberFinder::generate` call: the tuplet
branch prints its records with no locking; the else branch holds the
`PrimeSieve::LockGuard` around all its deliveries. -/
def generateTrace (cfg : GenConfig) (nv : Nat → Nat → Nat) (s : List Byte)
    (n : Nat) : List GenEvent :=
  if tupletPrintMode cfg then
    (tupletRecords nv (firstPrintKind cfg) s n).map GenEvent.record
  else
    GenEvent.acq :: (elseEmits cfg nv s n ++ [GenEvent.rel])

/-- The lock is held just before position `i` of a trace: strictly more
acquisitions than releases among the first `i` events. -/
def lockHeldAt (tr : List GenEvent) (i : Nat) : Bool :=
  decide ((tr.take i).countP isRelEv < (tr.take i).countP isAcqEv)

/-- The three flags `segmentProcessed` consults. -/
structure SPFlags where
  isCount : Bool
  isGenerate : Bool
  isStatus : Bool

/-- Observable calls of one `segmentProcessed` invocation. -/
inductive SPEvent where
  | countCall : SPEvent
  | genCall : SPEvent
  | status (m : Nat) : SPEvent
deriving DecidableEq

/-- Whether an event is a progress-report call. -/
def isStatusEv : SPEvent → Bool
  | .status _ => true
  | _ => false

/-- Modelled from the spec: `NUMBERS_PER_BYTE` (SieveOfEratosthenes.h, not
under `src/`) is the number of numeric candidates one segment byte covers;
30 for the mod-30 wheel, so a segment of `n` bytes spans `n * 30`
numbers. -/
def NUMBERS_PER_BYTE : Nat := 30

/-- `PrimeNumberFinder::segmentProcessed` as a call trace: `count` when
counting is requested, then `generate` when generation is requested, then
`ps_.updateStatus(sieveSize * NUMBERS_PER_BYTE)` when status reporting is
requested. -/
def segmentProcessedTrace (c : SPFlags) (n : Nat) : List SPEvent :=
  (if c.isCount then [SPEvent.countCall] else []) ++
    (if c.isGenerate then [SPEvent.genCall] else []) ++
    (if c.isStatus then [SPEvent.status (n * NUMBERS_PER_BYTE)] else [])

/-- The sieving start the `PrimeNumberFinder` constructor passes to its
`SieveOfEratosthenes` base: `std::max<uint64_t>(7, ps.getStart())`. -/
def pnfStart (start : Nat) : Nat :=
  max 7 start

/-- Executable check that adjacent elements are strictly increasing. -/
def ascending : List Nat → Bool
  | a :: b :: t => decide (a < b) && ascending (b :: t)
  | _ => true

/-- Executable check that adjacent elements are strictly increasing with
every element from the second on below 8. -/
def chainAsc8 : List Nat → Bool
  | a :: b :: t => decide (a < b) && decide (b < 8) && chainAsc8 (b :: t)
  | _ => true

/-- Example offset/wheel mapping for concrete runs: byte `j`, bit `b`
represents `7 + 30 * j + b` (any map strictly increasing in `b` works). -/
def exNv : Nat → Nat → Nat := fun j b => 7 + 30 * j + b

/-- A one-byte example segment whose single byte `0x06` contains one twin
pattern. -/
def exSeg : List Byte := [6]

/-- A configuration that prints twin primes (tuplet branch of
`generate`). -/
def printTwinsCfg : GenConfig :=
  { printTuplet := fun j => decide (j = 1), callback32 := false,
    callback64 := false, callback32oop := false, callback64oop := false,
    printPrimes := false }

/-- A configuration whose only sink is the 32-bit callback (else branch of
`generate`). -/
def cb32Cfg : GenConfig :=
  { printTuplet := fun _ => false, callback32 := true, callback64 := false,
    callback32oop := false, callback64oop := false, printPrimes := false }

/-- Flags with counting and generation requested but status reporting
disabled. -/
def spNoStatus : SPFlags :=
  { isCount := true, isGenerate := true, isStatus := false }

end PrimeNumberFinder

open PrimeNumberFinder

set_option maxRecDepth 4000 in
/-- The early-exit scan of `initCounts` agrees with brute force over the
whole pattern list, for every kind and byte value. -/
theorem scan_eq_brute (k : Fin 7) (j : Byte) :
    kCountsEntry k j = bruteCount j.val (kTupletBitmasks k) := by
  revert k j; decide

/-- C2: for every tuplet kind `k` and byte value `j`, the early-exit scan
of `initCounts` (stopping at the first pattern exceeding `j`) computes the
same count as brute force over all patterns of the kind: the number of
patterns that are bitwise submasks of `j`. -/
theorem initCounts_scan_eq_bruteforce (k : Fin 7) (j : Byte) :
    kCountsEntry k j = bruteCount j.val (kTupletBitmasks k) :=
  scan_eq_brute k j

/-- C3: for every kind `k`, segment `s` and size `n`, the kind-`k` delta of
`count` (the sum of `kCounts_[k][sieve[j]]` lookups) equals the exact
number of occurrences of kind-`k` patterns across the first `n` bytes. -/
theorem count_tuplets_eq_occurrences (k : Fin 7) (s : List Byte) (n : Nat) :
    tupletDelta k s n = tupletOccurrences k s n := by
  unfold tupletDelta tupletOccurrences
  rw [List.map_congr_left (fun b _ => scan_eq_brute k b)]

/-- Bitwise containment is transitive: a submask of `b1` is a submask of
any `b2` that contains `b1`. -/
theorem submask_trans {p b1 b2 : Nat} (h1 : b1 &&& p = p) (h : b1 &&& b2 = b1) :
    b2 &&& p = p :=
  calc b2 &&& p = b2 &&& (b1 &&& p) := by rw [h1]
    _ = b2 &&& b1 &&& p := (Nat.land_assoc b2 b1 p).symm
    _ = b1 &&& b2 &&& p := by rw [Nat.land_comm b2 b1]
    _ = b1 &&& p := by rw [h]
    _ = p := h1

/-- C7: for every kind `k`, the table entry of byte value 0 is 0, and the
table is monotone under bitwise containment: if the set bits of `b1` are a
subset of those of `b2` then `kCounts_[k][b1] ≤ kCounts_[k][b2]`. -/
theorem kCounts_zero_and_monotone (k : Fin 7) (b1 b2 : Byte)
    (h : b1.val &&& b2.val = b1.val) :
    kCountsEntry k 0 = 0 ∧ kCountsEntry k b1 ≤ kCountsEntry k b2 := by
  refine ⟨by revert k; decide, ?_⟩
  rw [scan_eq_brute k b1, scan_eq_brute k b2]
  refine List.Sublist.length_le (List.monotone_filter_right _ ?_)
  intro p hp
  simp only [decide_eq_true_eq] at hp ⊢
  exact submask_trans hp h

/-- Witness for C7 at kind 1, `b1 = 0x06`, `b2 = 0x07`. -/
theorem kCounts_zero_and_monotone_witness :
    kCountsEntry 1 0 = 0 ∧ kCountsEntry 1 6 ≤ kCountsEntry 1 7 :=
  kCounts_zero_and_monotone 1 6 7 (by decide)

/-- Unfolding equation of `popc`, valid for all `n`. -/
theorem popc_succ (n : Nat) : popc n = n % 2 + popc (n / 2) := by
  cases n with
  | zero => simp [popc]
  | succ m => simp [popc]

/-- Splitting a number at bit `k`: the bits of `a + 2 ^ k * b` are the
bits of `a` (all below `k`) together with the bits of `b` shifted up. -/
theorem popc_add_shift (k a b : Nat) (h : a < 2 ^ k) :
    popc (a + 2 ^ k * b) = popc a + popc b := by
  induction k generalizing a with
  | zero =>
    rw [pow_zero] at h ⊢
    have ha : a = 0 := by omega
    subst ha
    have h0 : popc 0 = 0 := by simp [popc]
    simp [h0]
  | succ k ih =>
    rw [pow_succ] at h ⊢
    have e1 : a + 2 ^ k * 2 * b = a + 2 * (2 ^ k * b) := by ring
    rw [e1]
    set m := 2 ^ k * b with hm
    rw [popc_succ (a + 2 * m)]
    have e2 : (a + 2 * m) % 2 = a % 2 := by omega
    have e3 : (a + 2 * m) / 2 = a / 2 + m := by omega
    rw [e2, e3, ih (a / 2) (by omega), popc_succ a]
    omega

/-- The population count of a little-endian word equals the sum of the
population counts of its bytes. -/
theorem popc_word64_eq (bs : List Nat) (h : ∀ b ∈ bs, b < 256) :
    popc (word64 bs) = (bs.map popc).sum := by
  induction bs with
  | nil => simp [word64, popc]
  | cons b t ih =>
    have hb : b < 2 ^ 8 := by
      have := h b (List.mem_cons_self b t)
      omega
    have hw : word64 (b :: t) = b + 2 ^ 8 * word64 t := by
      show b + 256 * word64 t = b + 2 ^ 8 * word64 t
      norm_num
    rw [hw, popc_add_shift 8 b (word64 t) hb,
      ih (fun x hx => h x (List.mem_cons_of_mem b hx))]
    simp

/-- Summing word population counts over the 8-byte chunks of a byte list
gives the total byte population count. -/
theorem sum_popc_chunks8 (l : List Nat) (h : ∀ b ∈ l, b < 256) :
    ((chunks8 l).map (fun c => popc (word64 c))).sum = (l.map popc).sum := by
  induction l using chunks8.induct with
  | case1 => simp [chunks8]
  | case2 a t ih =>
    simp only [chunks8, List.map_cons, List.sum_cons]
    rw [ih (fun b hb => h b (List.mem_cons_of_mem a (List.mem_of_mem_drop hb)))]
    rw [popc_word64_eq (a :: t.take 7) (by
      intro x hx
      rcases List.mem_cons.mp hx with rfl | hx'
      · exact h x (List.mem_cons_self x t)
      · exact h x (List.mem_cons_of_mem a (List.mem_of_mem_take hx')))]
    have hsplit : (t.take 7).map popc ++ (t.drop 7).map popc = t.map popc := by
      rw [← List.map_append, List.take_append_drop]
    have hsum := congrArg List.sum hsplit
    rw [List.sum_append] at hsum
    simp only [List.map_cons, List.sum_cons]
    omega

/-- A bounded number is counted exactly by the bit-by-bit reference loop
over its bit positions. -/
theorem bitwiseRef_eq_popc (f : Nat) :
    ∀ m : Nat, m < 2 ^ f → bitwiseRef f m = popc m := by
  induction f with
  | zero =>
    intro m hm
    rw [pow_zero] at hm
    have : m = 0 := by omega
    subst this
    simp [bitwiseRef, popc]
  | succ f ih =>
    intro m hm
    rw [pow_succ] at hm
    show m % 2 + bitwiseRef f (m / 2) = popc m
    rw [ih (m / 2) (by omega), popc_succ m]

/-- C1: for every segment `s` and size `n`, the prime-count delta of
`count` (64-bit-word population count over the first `n / 8 * 8` bytes
plus byte-wise population count over the `n mod 8` trailing bytes) equals
the number of 1 bits of `s[0..n)` as computed by a bit-by-bit reference
counter. -/
theorem count_primes_eq_reference (s : List Byte) (n : Nat) :
    countPrimesDelta s n = refBitCount (s.take n) := by
  unfold countPrimesDelta popcount_lauradoux popcount_kernighan refBitCount
  have hlt : ∀ b ∈ (s.take n).map Fin.val, b < 256 := by
    intro b hb
    obtain ⟨x, -, rfl⟩ := List.mem_map.mp hb
    exact x.isLt
  rw [List.map_map]
  have hcomp :
      ((chunks8 (((s.take n).map Fin.val).take (n / 8 * 8))).map (popc ∘ word64)).sum
        = ((((s.take n).map Fin.val).take (n / 8 * 8)).map popc).sum := by
    exact sum_popc_chunks8 _ (fun b hb => hlt b (List.mem_of_mem_take hb))
  simp only [Function.comp_def] at hcomp ⊢
  rw [hcomp]
  have hidx : n - n % 8 = n / 8 * 8 := by omega
  rw [hidx, ← List.sum_append, ← List.map_append, List.take_append_drop,
    List.map_map]
  refine congrArg List.sum (List.map_congr_left ?_)
  intro b _
  exact (bitwiseRef_eq_popc 8 b.val (by have := b.isLt; omega)).symm

/-- Applying the tuplet phase fold of `countRun` at one index: for a list
of pairwise-distinct kinds, index `i` ends at `c i` plus its own delta
exactly when `i` is a listed, enabled kind. -/
theorem countRun_foldl_apply (flags : Fin 7 → Bool) (s : List Byte) (n : Nat) :
    ∀ (L : List (Fin 7)), L.Nodup → ∀ (c : Fin 7 → Nat) (i : Fin 7),
      (L.foldl
        (fun c j => if flags j then Function.update c j (c j + tupletDelta j s n) else c)
        c) i
        = if i ∈ L ∧ flags i = true then c i + tupletDelta i s n else c i := by
  intro L
  induction L with
  | nil => intro _ c i; simp
  | cons j t ih =>
    intro hnd c i
    have hnd' : t.Nodup := (List.nodup_cons.mp hnd).2
    have hjt : j ∉ t := (List.nodup_cons.mp hnd).1
    rw [List.foldl_cons, ih hnd' _ i]
    rcases eq_or_ne i j with rfl | hij
    · rw [if_neg (fun hc => hjt hc.1)]
      by_cases hf : flags i
      · simp [hf, Function.update_same, List.mem_cons]
      · simp [hf, List.mem_cons]
    · have hci :
          (if flags j then Function.update c j (c j + tupletDelta j s n) else c) i
            = c i := by
        by_cases hf : flags j
        · simp [hf, Function.update_noteq hij]
        · simp [hf]
      rw [hci]
      simp [List.mem_cons, hij]

/-- `countRun` pointwise: each accumulator index gains exactly its own
delta when its flag is enabled, and is untouched otherwise. -/
theorem countRun_apply (flags : Fin 7 → Bool) (s : List Byte) (n : Nat)
    (counts : Fin 7 → Nat) (i : Fin 7) :
    countRun flags s n counts i
      = if flags i = true then counts i + kindDelta i s n else counts i := by
  unfold countRun
  rw [countRun_foldl_apply flags s n _ (by decide) _ i]
  rcases eq_or_ne i 0 with rfl | hi0
  · have h0L : (0 : Fin 7) ∉ ([1, 2, 3, 4, 5, 6] : List (Fin 7)) := by decide
    rw [if_neg (fun hc => h0L hc.1)]
    by_cases hf : flags 0
    · simp [hf, Function.update_same, kindDelta]
    · simp [hf]
  · have hiL : i ∈ ([1, 2, 3, 4, 5, 6] : List (Fin 7)) := by
      have : ∀ i : Fin 7, i ≠ 0 → i ∈ ([1, 2, 3, 4, 5, 6] : List (Fin 7)) := by decide
      exact this i hi0
    have hc0 :
        (if flags 0 then Function.update counts 0 (counts 0 + countPrimesDelta s n)
         else counts) i = counts i := by
      by_cases hf : flags 0
      · simp [hf, Function.update_noteq hi0]
      · simp [hf]
    rw [hc0]
    by_cases hf : flags i
    · simp [hf, hiL, kindDelta, hi0]
    · simp [hf]

/-- C8: for every flag set, segment and size, each enabled kind's
accumulator receives exactly the delta it would receive when running
`count` with that kind enabled alone — the per-kind accumulations do not
interfere. -/
theorem count_kinds_independent (flags : Fin 7 → Bool) (counts : Fin 7 → Nat)
    (s : List Byte) (n : Nat) (i : Fin 7) (h : flags i = true) :
    countRun flags s n counts i
      = countRun (fun j => decide (j = i)) s n counts i := by
  rw [countRun_apply, countRun_apply, h]
  simp

/-- Witness for C8: all kinds enabled versus primes alone, at index 0. -/
theorem count_kinds_independent_witness :
    countRun (fun _ => true) [] 0 (fun _ => 0) 0
      = countRun (fun j => decide (j = 0)) [] 0 (fun _ => 0) 0 :=
  count_kinds_independent (fun _ => true) (fun _ => 0) [] 0 0 rfl

/-- Every kind's delta vanishes on a size-0 segment. -/
theorem kindDelta_zero (i : Fin 7) (s : List Byte) : kindDelta i s 0 = 0 := by
  unfold kindDelta
  split <;>
    simp [countPrimesDelta, tupletDelta, popcount_lauradoux, popcount_kernighan,
      chunks8]

/-- C9: a segment of size 0 adds zero to every accumulator in `count`
(whatever flags are enabled) and `generate` delivers nothing to any sink
(in either mode); both operations are total. -/
theorem zero_size_segment (flags : Fin 7 → Bool) (counts : Fin 7 → Nat)
    (cfg : GenConfig) (nv : Nat → Nat → Nat) (s : List Byte) :
    countRun flags s 0 counts = counts ∧
      (generateTrace cfg nv s 0).filter GenEvent.isEmit = [] := by
  constructor
  · funext i
    rw [countRun_apply, kindDelta_zero]
    simp
  · unfold generateTrace
    split
    · simp [tupletRecords]
    · simp [elseEmits, sinkOn, segmentValues, GenEvent.isEmit]

/-- Every delivery of one sink of the else branch is a `prime` event. -/
theorem sinkOn_no_lock (b : Bool) (t : Fin 5) (nv : Nat → Nat → Nat)
    (s : List Byte) (n : Nat) :
    ∀ e ∈ sinkOn b t nv s n, isAcqEv e = false ∧ isRelEv e = false := by
  intro e he
  unfold sinkOn at he
  split at he
  · obtain ⟨v, -, rfl⟩ := List.mem_map.mp he
    exact ⟨rfl, rfl⟩
  · simp at he

/-- The else branch of `generate` emits only `prime` events: it neither
acquires nor releases the lock in its emission list. -/
theorem elseEmits_no_lock (cfg : GenConfig) (nv : Nat → Nat → Nat)
    (s : List Byte) (n : Nat) :
    ∀ e ∈ elseEmits cfg nv s n, isAcqEv e = false ∧ isRelEv e = false := by
  intro e he
  unfold elseEmits at he
  simp only [List.mem_append] at he
  rcases he with ((((he | he) | he) | he) | he) <;>
    exact sinkOn_no_lock _ _ _ _ _ e he

/-- C4 (amended): in the single-value callback/print mode — the branch
that is not tuplet printing — every delivery of `generate` happens while
the lock is held: the `LockGuard` is acquired before the first emission
and released only after the last one. -/
theorem generate_emits_locked_in_callback_mode (cfg : GenConfig)
    (nv : Nat → Nat → Nat) (s : List Byte) (n : Nat) (i : Nat)
    (hmode : tupletPrintMode cfg = false)
    (hemit : ((generateTrace cfg nv s n).getD i GenEvent.rel).isEmit = true) :
    lockHeldAt (generateTrace cfg nv s n) i = true := by
  have hc : ¬ (tupletPrintMode cfg = true) := by simp [hmode]
  unfold generateTrace at hemit ⊢
  rw [if_neg hc] at hemit ⊢
  cases i with
  | zero => simp [GenEvent.isEmit] at hemit
  | succ j =>
    rw [List.getD_cons_succ] at hemit
    have hjlen : j < (elseEmits cfg nv s n).length := by
      by_contra hge
      push_neg at hge
      rw [List.getD_append_right _ [GenEvent.rel] _ j hge] at hemit
      have hrel :
          ([GenEvent.rel].getD (j - (elseEmits cfg nv s n).length) GenEvent.rel)
            = GenEvent.rel := by
        cases j - (elseEmits cfg nv s n).length with
        | zero => rfl
        | succ m => rfl
      rw [hrel] at hemit
      simp [GenEvent.isEmit] at hemit
    unfold lockHeldAt
    rw [List.take_succ_cons, List.take_append_of_le_length (le_of_lt hjlen),
      List.countP_cons, List.countP_cons]
    have hzero : ((elseEmits cfg nv s n).take j).countP isRelEv = 0 :=
      List.countP_eq_zero.mpr (fun e he => by
        rw [(elseEmits_no_lock cfg nv s n e (List.mem_of_mem_take he)).2]
        simp)
    simp [isAcqEv, isRelEv, hzero]

/-- Counterexample to C4 as stated: with twin printing enabled, `generate`
emits its first record at trace position 0 while the lock is not held —
the tuplet-printing branch never acquires the `LockGuard`. -/
theorem generate_lock_counterexample :
    ((generateTrace printTwinsCfg exNv exSeg 1).getD 0 GenEvent.rel).isEmit = true ∧
      lockHeldAt (generateTrace printTwinsCfg exNv exSeg 1) 0 = false := by
  decide

/-- Witness for the amended C4: under the 32-bit callback configuration
the delivery at trace position 1 happens with the lock held. -/
theorem generate_emits_locked_witness :
    lockHeldAt (generateTrace cb32Cfg exNv exSeg 1) 1 = true :=
  generate_emits_locked_in_callback_mode cb32Cfg exNv exSeg 1 1 (by decide)
    (by decide)

set_option maxRecDepth 8000 in
/-- The early-exit pattern scan of `generate` collects exactly the
patterns of the kind that are bitwise submasks of the byte. -/
theorem matched_eq_filter (k : Fin 7) (b : Byte) :
    matchedPatterns b.val (kTupletBitmasks k)
      = (kTupletBitmasks k).filter (fun p => b.val &&& p = p) := by
  revert k b; decide

/-- Every pattern of every kind has at least one set bit, and its bit
positions are strictly increasing and all below 8. -/
theorem patterns_bit_facts (k : Fin 7) :
    ∀ p ∈ kTupletBitmasks k,
      bitIndices p ≠ [] ∧ chainAsc8 (bitIndices p) = true := by
  revert k; decide

/-- Soundness of the executable chain check. -/
theorem chainAsc8_spec :
    ∀ l : List Nat, chainAsc8 l = true → l.Chain' (fun a b => a < b ∧ b < 8)
  | [], _ => List.chain'_nil
  | [a], _ => List.chain'_singleton a
  | a :: b :: t, h => by
    simp only [chainAsc8, Bool.and_eq_true, decide_eq_true_eq] at h
    exact List.chain'_cons.mpr ⟨⟨h.1.1, h.1.2⟩, chainAsc8_spec (b :: t) h.2⟩

/-- Completeness of the executable ascending check against `Chain'`. -/
theorem ascending_of_chain' :
    ∀ l : List Nat, l.Chain' (fun a b => a < b) → ascending l = true
  | [], _ => rfl
  | [_], _ => rfl
  | a :: b :: t, h => by
    obtain ⟨hab, ht⟩ := List.chain'_cons.mp h
    simp only [ascending, Bool.and_eq_true, decide_eq_true_eq]
    exact ⟨hab, ascending_of_chain' (b :: t) ht⟩

/-- The `intercalate` accumulator loop against the record-body builder. -/
theorem intercalate_go_spec (rest : List Nat) :
    ∀ acc : String,
      String.intercalate.go acc ", " (rest.map toString) ++ ")\n"
        = acc ++ ((if rest.isEmpty then ")\n" else ", ") ++ recBody rest) := by
  induction rest with
  | nil =>
    intro acc
    show acc ++ ")\n" = acc ++ (")\n" ++ recBody [])
    simp [recBody]
  | cons w t ih =>
    intro acc
    show String.intercalate.go (acc ++ ", " ++ toString w) ", " (t.map toString)
          ++ ")\n" = _
    rw [ih]
    simp [recBody, String.append_assoc]

/-- The incremental record builder of `generate` produces exactly the
parenthesized, comma-separated, newline-terminated form. -/
theorem buildRecord_eq_intercalate (vs : List Nat) (hne : vs ≠ []) :
    buildRecord vs = "(" ++ String.intercalate ", " (vs.map toString) ++ ")\n" := by
  match vs, hne with
  | v :: rest, _ =>
    have h1 : String.intercalate ", " ((v :: rest).map toString)
        = String.intercalate.go (toString v) ", " (rest.map toString) := rfl
    rw [h1, String.append_assoc, intercalate_go_spec rest (toString v)]
    simp [buildRecord, recBody, String.append_assoc]

/-- `flatMap` respects pointwise-equal functions. -/
theorem flatMap_congr_mem {α β : Type} (l : List α) (f g : α → List β)
    (h : ∀ a ∈ l, f a = g a) : l.flatMap f = l.flatMap g := by
  induction l with
  | nil => rfl
  | cons a t ih =>
    rw [List.flatMap_cons, List.flatMap_cons, h a (List.mem_cons_self a t),
      ih (fun x hx => h x (List.mem_cons_of_mem a hx))]

/-- C5: in tuplet printing mode, the records `generate` emits are exactly
one per byte-and-pattern match in segment order, each the parenthesized,
comma-separated, newline-terminated list of the group's values with no
trailing comma, and each group's values are strictly ascending (whenever
the engine's offset/wheel mapping is strictly increasing in the bit
position). -/
theorem generate_tuplet_record_format (nv : Nat → Nat → Nat) (k : Fin 7)
    (s : List Byte) (n : Nat)
    (hm : ∀ j a b : Nat, a < b → b < 8 → nv j a < nv j b) :
    tupletRecords nv k s n
        = (recordGroups nv k s n).map
            (fun vs => "(" ++ String.intercalate ", " (vs.map toString) ++ ")\n") ∧
      (recordGroups nv k s n).all
          (fun vs => !vs.isEmpty && ascending vs) = true := by
  constructor
  · unfold tupletRecords recordGroups
    rw [List.map_flatMap]
    apply flatMap_congr_mem
    intro jb _
    rw [matched_eq_filter k jb.2, List.map_map]
    apply List.map_congr_left
    intro p hp
    have hpk : p ∈ kTupletBitmasks k := List.mem_of_mem_filter hp
    have hne : (bitIndices p).map (nv jb.1) ≠ [] := by
      intro hcon
      exact (patterns_bit_facts k p hpk).1 (List.map_eq_nil_iff.mp hcon)
    simp only [Function.comp]
    exact buildRecord_eq_intercalate _ hne
  · rw [List.all_eq_true]
    intro vs hvs
    simp only [recordGroups, List.mem_flatMap, List.mem_map] at hvs
    obtain ⟨jb, -, p, hp, rfl⟩ := hvs
    have hpk : p ∈ kTupletBitmasks k := List.mem_of_mem_filter hp
    obtain ⟨hne, hch⟩ := patterns_bit_facts k p hpk
    have hmapne : (bitIndices p).map (nv jb.1) ≠ [] := by
      intro hcon
      exact hne (List.map_eq_nil_iff.mp hcon)
    have hasc : ((bitIndices p).map (nv jb.1)).Chain' (fun a b => a < b) :=
      (List.chain'_map (nv jb.1)).mpr
        ((chainAsc8_spec _ hch).imp (fun a b hab => hm jb.1 a b hab.1 hab.2))
    rw [Bool.and_eq_true]
    constructor
    · simp [hmapne]
    · exact ascending_of_chain' _ hasc

/-- Witness for C5: the twin record of the byte `0x06` segment under the
example mapping. -/
theorem generate_tuplet_record_format_witness :
    tupletRecords exNv 1 exSeg 1
        = (recordGroups exNv 1 exSeg 1).map
            (fun vs => "(" ++ String.intercalate ", " (vs.map toString) ++ ")\n") ∧
      (recordGroups exNv 1 exSeg 1).all
          (fun vs => !vs.isEmpty && ascending vs) = true :=
  generate_tuplet_record_format exNv 1 exSeg 1
    (fun j _ _ h1 _ => Nat.add_lt_add_left h1 (7 + 30 * j))

/-- Counterexample to C6 as stated: with counting and generation requested
but status reporting disabled, `segmentProcessed` performs zero
progress-report calls for the segment — the hook is not invoked once per
processed segment unconditionally. -/
theorem segment_processed_status_counterexample :
    (segmentProcessedTrace spNoStatus 4).countP isStatusEv = 0 := by
  decide

/-- C6 (amended): `segmentProcessed` invokes `count` exactly when counting
is requested and `generate` exactly when generation is requested, and
afterwards — status events only ever follow the count/generate calls —
invokes the progress-reporting hook exactly when status reporting is
requested, once, with the segment's byte size times the number of
candidates per byte. -/
theorem segment_processed_dispatch (c : SPFlags) (n : Nat) :
    (SPEvent.countCall ∈ segmentProcessedTrace c n ↔ c.isCount = true) ∧
      (SPEvent.genCall ∈ segmentProcessedTrace c n ↔ c.isGenerate = true) ∧
      (segmentProcessedTrace c n).filter isStatusEv
        = (if c.isStatus then [SPEvent.status (n * NUMBERS_PER_BYTE)] else []) ∧
      segmentProcessedTrace c n
        = (segmentProcessedTrace c n).filter (fun e => !isStatusEv e) ++
            (segmentProcessedTrace c n).filter isStatusEv := by
  obtain ⟨c1, c2, c3⟩ := c
  cases c1 <;> cases c2 <;> cases c3 <;>
    simp [segmentProcessedTrace, isStatusEv]

/-- C10: the constructor clamps the sieving start to
`max(7, configured start)`, so the component's range never contains 2, 3
or 5 — those primes are handled upstream. -/
theorem constructor_clamps_start (start : Nat) :
    pnfStart start = max 7 start ∧ 2 < pnfStart start ∧ 3 < pnfStart start ∧
      5 < pnfStart start := by
  refine ⟨rfl, ?_, ?_, ?_⟩ <;> (unfold pnfStart; omega)
